import Mathlib

/-!
Verification of the core of the comet garbage collector runtime.

The development shallowly embeds the Rust sources:
  crates/comet/src/utils.rs     (BitFieldTrait and the concrete bit fields)
  src/api.rs                    (HeapObjectHeader operations)
  crates/comet/src/bitmap.rs    (SpaceBitmap, HeapBitmap, ObjectStartBitmap)
  crates/comet/src/safepoint.rs (GlobalSafepoint start/end/wait_gc)

Machine integers are modelled as Nat with explicit reduction mod 2^64
(usize/u64) or 2^32 (u32) where the Rust code wraps or truncates.
-/

/-- Width of usize in bits (BITS_PER_INTPTR in bitmap.rs, on a 64-bit target). -/
def BITS_PER_INTPTR : Nat := 64

/-- MIN_ALLOCATION from api.rs. -/
def MIN_ALLOCATION : Nat := 16

/-- Bitwise complement of a 64-bit word, as on Nat: for m < 2^64 this is the
u64 value !m. -/
def comp64 (m : Nat) : Nat := (2 ^ 64 - 1) - m

/-- MASK of BitFieldTrait in utils.rs: ((1 << SHIFT) << SIZE) - (1 << SHIFT). -/
def bfMask (shift size : Nat) : Nat := ((1 <<< shift) <<< size) - (1 <<< shift)

/-- encode of BitFieldTrait: value.wrapping_shl(SHIFT) on u64. -/
def bfEncode (shift v : Nat) : Nat := (v <<< (shift % 64)) % 2 ^ 64

/-- update of BitFieldTrait: (previous & !MASK) | encode(value) on u64. -/
def bfUpdate (shift size prev v : Nat) : Nat :=
  (prev &&& comp64 (bfMask shift size)) ||| bfEncode shift v

/-- decode of BitFieldTrait: (value & MASK).wrapping_shr(SHIFT) on u64. -/
def bfDecode (shift size v : Nat) : Nat := (v &&& bfMask shift size) >>> (shift % 64)

namespace HeapObjectHeader

/-- set_vtable in api.rs: value = VTableBitField::encode(vtable), with
VTableBitField at SHIFT 0, SIZE 58. -/
def set_vtable (vt : Nat) : Nat := bfEncode 0 vt

/-- set_size in api.rs: asserts size != 0, then updates SizeBitField
(SHIFT 0, SIZE 13) with size / MIN_ALLOCATION. The assertion is modelled as
the none case. -/
def set_size (value bytes : Nat) : Option Nat :=
  if bytes = 0 then none else some (bfUpdate 0 13 value (bytes / MIN_ALLOCATION))

/-- size in api.rs: SizeBitField::decode(value) * MIN_ALLOCATION. -/
def size (value : Nat) : Nat := bfDecode 0 13 value * MIN_ALLOCATION

/-- is_precise in api.rs: SizeBitField::decode(value) == 0. -/
def is_precise (value : Nat) : Bool := bfDecode 0 13 value == 0

/-- set_forwarded in api.rs: value = VTableBitField::update(value, fwdptr);
value = ForwardedBit::update(value, 1), with ForwardedBit at SHIFT 3, SIZE 1. -/
def set_forwarded (value fwdptr : Nat) : Nat :=
  bfUpdate 3 1 (bfUpdate 0 58 value fwdptr) 1

/-- is_forwarded in api.rs: ForwardedBit::decode(value) != 0. -/
def is_forwarded (value : Nat) : Bool := bfDecode 3 1 value != 0

/-- vtable in api.rs: VTableBitField::decode(value). -/
def vtable (value : Nat) : Nat := bfDecode 0 58 value

/-- marked_bit in api.rs: MarkBit::decode(padding) != 0, with MarkBit at
SHIFT 14, SIZE 1; padding is widened from u32 to u64 for the decode. -/
def marked_bit (padding : Nat) : Bool := bfDecode 14 1 padding != 0

/-- unmark in api.rs: padding = MarkBit::update(padding as u64, 0) as u32. -/
def unmark (padding : Nat) : Nat := bfUpdate 14 1 padding 0 % 2 ^ 32

/-- set_marked_bit in api.rs: padding = MarkedBitField::update(padding as u64, 1)
as u32, with MarkedBitField at SHIFT 48, SIZE 1. -/
def set_marked_bit (padding : Nat) : Nat := bfUpdate 48 1 padding 1 % 2 ^ 32

end HeapObjectHeader

/-- The testBit view of the 64-bit complement: for m < 2^64, bit i of !m is
set iff i < 64 and bit i of m is clear. -/
theorem testBit_comp64 {m : Nat} (hm : m < 2 ^ 64) (i : Nat) :
    (comp64 m).testBit i = (decide (i < 64) && !(m.testBit i)) := by
  have h : comp64 m = 2 ^ 64 - (m + 1) := by
    unfold comp64; omega
  rw [h]
  exact Nat.testBit_two_pow_sub_succ hm i

theorem bfMask_zero_size (size : Nat) : bfMask 0 size = 2 ^ size - 1 := by
  simp [bfMask, Nat.shiftLeft_eq]

theorem bfMask_shift (shift size : Nat) :
    bfMask shift size = 2 ^ shift * (2 ^ size - 1) := by
  simp [bfMask, Nat.shiftLeft_eq, Nat.mul_sub, ← Nat.pow_add]

/-- Bit i of bfMask shift size is set iff shift ≤ i < shift + size. -/
theorem testBit_bfMask (shift size i : Nat) :
    (bfMask shift size).testBit i = (decide (shift ≤ i) && decide (i < shift + size)) := by
  rw [bfMask_shift, Nat.mul_comm, ← Nat.shiftLeft_eq, Nat.testBit_shiftLeft,
    Nat.testBit_two_pow_sub_one]
  by_cases h : shift ≤ i
  · simp only [ge_iff_le, h, decide_eq_true_eq, Bool.true_and, decide_True]
    exact decide_eq_decide.mpr (by omega)
  · simp [h]

/-- The testBit view of bfEncode, for shift < 64 and an in-range value. -/
theorem testBit_bfEncode {shift v : Nat} (hs : shift < 64) (hv : v < 2 ^ (64 - shift))
    (i : Nat) :
    (bfEncode shift v).testBit i = (decide (shift ≤ i) && v.testBit (i - shift)) := by
  have : shift % 64 = shift := Nat.mod_eq_of_lt hs
  rw [bfEncode, this, Nat.testBit_mod_two_pow, Nat.testBit_shiftLeft]
  by_cases h64 : i < 64
  · simp [h64]
  · have hvb : v.testBit (i - shift) = false := by
      apply Nat.testBit_lt_two_pow
      exact lt_of_lt_of_le hv (Nat.pow_le_pow_right (by norm_num) (by omega))
    simp [h64, hvb]

/-- The testBit view of bfUpdate. -/
theorem testBit_bfUpdate {shift size prev v : Nat} (hm : bfMask shift size < 2 ^ 64)
    (i : Nat) :
    (bfUpdate shift size prev v).testBit i =
      ((prev.testBit i && decide (i < 64)
          && !(decide (shift ≤ i) && decide (i < shift + size)))
        || (bfEncode shift v).testBit i) := by
  rw [bfUpdate, Nat.testBit_or, Nat.testBit_and, testBit_comp64 hm, testBit_bfMask]
  cases prev.testBit i <;> cases Decidable.em (i < 64) <;> simp_all

/-- C6 (amended): after set_forwarded(new_addr) with new_addr fitting in 58
bits, is_forwarded() is true and vtable() returns new_addr with bit 3 (the
forwarded flag, which lies inside the 58-bit vtable field) forced to 1. -/
theorem set_forwarded_spec (value fwdptr : Nat) (hv : value < 2 ^ 64)
    (hf : fwdptr < 2 ^ 58) :
    HeapObjectHeader.is_forwarded (HeapObjectHeader.set_forwarded value fwdptr) = true ∧
    HeapObjectHeader.vtable (HeapObjectHeader.set_forwarded value fwdptr) = fwdptr ||| 8 := by
  have hm58 : bfMask 0 58 < 2 ^ 64 := by rw [bfMask_shift]; norm_num
  have hm3 : bfMask 3 1 < 2 ^ 64 := by rw [bfMask_shift]; norm_num
  have hfbit : ∀ i, 58 ≤ i → fwdptr.testBit i = false := by
    intro i h
    exact Nat.testBit_lt_two_pow
      (lt_of_lt_of_le hf (Nat.pow_le_pow_right (by norm_num) h))
  have key : ∀ i, (HeapObjectHeader.set_forwarded value fwdptr).testBit i =
      ((value.testBit i && decide (58 ≤ i) && decide (i < 64))
        || (fwdptr.testBit i && !(decide (i = 3))) || decide (i = 3)) := by
    intro i
    rw [HeapObjectHeader.set_forwarded,
      testBit_bfUpdate hm3, testBit_bfUpdate hm58,
      testBit_bfEncode (by norm_num)
        (show fwdptr < 2 ^ (64 - 0) from lt_of_lt_of_le hf (by norm_num)),
      testBit_bfEncode (show (3:Nat) < 64 by norm_num) (show 1 < 2 ^ (64 - 3) by norm_num)]
    have h13 : Nat.testBit 1 (i - 3) = decide (i - 3 = 0) := by
      rcases Nat.eq_zero_or_pos (i - 3) with h | h
      · simp [h]
      · rw [Nat.testBit_lt_two_pow (x := 1) (by
          calc (1:Nat) < 2 ^ 1 := by norm_num
          _ ≤ 2 ^ (i - 3) := Nat.pow_le_pow_right (by norm_num) h)]
        simp; omega
    rw [h13]
    by_cases h3 : i = 3
    · subst h3; simp
    · by_cases hlt3 : i < 3
      · simp [h3, show ¬(3 ≤ i) from by omega, show i < 0 + 58 from by omega,
          show i < 64 from by omega, show ¬(58 ≤ i) from by omega]
      · by_cases h58 : i < 58
        · simp [h3, show (3:Nat) ≤ i from by omega, show ¬(i < 3 + 1) from by omega,
            show i < 0 + 58 from by omega, show i < 64 from by omega,
            show ¬(58 ≤ i) from by omega, show ¬(i - 3 = 0) from by omega]
        · by_cases h64 : i < 64
          · simp [h3, show (3:Nat) ≤ i from by omega, show ¬(i < 3 + 1) from by omega,
              show ¬(i < 0 + 58) from by omega, show (58:Nat) ≤ i from by omega,
              show ¬(i - 3 = 0) from by omega, h64, hfbit i (by omega)]
          · simp [h3, show (3:Nat) ≤ i from by omega, show ¬(i < 3 + 1) from by omega,
              show ¬(i < 0 + 58) from by omega, show ¬(i - 3 = 0) from by omega,
              h64, hfbit i (by omega)]
  constructor
  · have h8 : HeapObjectHeader.set_forwarded value fwdptr &&& bfMask 3 1 = 8 := by
      apply Nat.eq_of_testBit_eq
      intro i
      rw [Nat.testBit_and, key i, testBit_bfMask]
      by_cases h3 : i = 3
      · subst h3; simp [show Nat.testBit 8 3 = true from by decide]
      · have h8i : Nat.testBit 8 i = false := by
          rw [show (8:Nat) = 2 ^ 3 from by norm_num]
          exact Nat.testBit_two_pow_of_ne (by omega)
        simp [h3, h8i]
        omega
    rw [HeapObjectHeader.is_forwarded, bfDecode, h8]
    decide
  · rw [HeapObjectHeader.vtable, bfDecode]
    simp only [Nat.zero_mod, Nat.shiftRight_zero]
    apply Nat.eq_of_testBit_eq
    intro i
    rw [Nat.testBit_and, key i, testBit_bfMask, Nat.testBit_or]
    have h8i : Nat.testBit 8 i = decide (i = 3) := by
      rw [show (8:Nat) = 2 ^ 3 from by norm_num, Nat.testBit_two_pow]
      exact decide_eq_decide.mpr (by omega)
    rw [h8i]
    by_cases h3 : i = 3
    · subst h3; simp
    · by_cases h58 : i < 58
      · simp [h3, show (0:Nat) ≤ i from Nat.zero_le i, show i < 0 + 58 from by omega]
      · simp [h3, hfbit i (by omega), show ¬(i < 0 + 58) from by omega]

/-- C6 counterexample: the S5 scenario. Build a header with vtable 0xDEAD0000
and size 64; after set_forwarded(0xBEEF0000), vtable() returns 0xBEEF0008,
not 0xBEEF0000 as the claim states. -/
theorem set_forwarded_claim_false :
    HeapObjectHeader.set_size (HeapObjectHeader.set_vtable 0xDEAD0000) 64
        = some 0xDEAD0004 ∧
    HeapObjectHeader.is_forwarded (HeapObjectHeader.set_forwarded 0xDEAD0004 0xBEEF0000)
        = true ∧
    HeapObjectHeader.vtable (HeapObjectHeader.set_forwarded 0xDEAD0004 0xBEEF0000)
        = 0xBEEF0008 ∧
    (0xBEEF0008 : Nat) ≠ 0xBEEF0000 := by
  refine ⟨by decide, by decide, by decide, by decide⟩

/-- C6 witness: instance of set_forwarded_spec at a concrete header. -/
theorem set_forwarded_spec_witness :
    HeapObjectHeader.is_forwarded (HeapObjectHeader.set_forwarded 0xDEAD0004 0xBEEF0008) = true ∧
    HeapObjectHeader.vtable (HeapObjectHeader.set_forwarded 0xDEAD0004 0xBEEF0008)
      = (0xBEEF0008 ||| 8) :=
  set_forwarded_spec 0xDEAD0004 0xBEEF0008 (by decide) (by decide)

/-- C8: set_size with a positive multiple of MIN_ALLOCATION that fits in the
13-bit size field succeeds, a subsequent size() returns the same byte count,
and no bit of the value word outside the 13-bit size field changes. -/
theorem set_size_spec (value bytes : Nat) (hv : value < 2 ^ 64) (hb : 0 < bytes)
    (hdvd : MIN_ALLOCATION ∣ bytes) (hfit : bytes / MIN_ALLOCATION < 2 ^ 13) :
    HeapObjectHeader.set_size value bytes
        = some (bfUpdate 0 13 value (bytes / MIN_ALLOCATION)) ∧
    HeapObjectHeader.size (bfUpdate 0 13 value (bytes / MIN_ALLOCATION)) = bytes ∧
    ∀ i, 13 ≤ i →
      (bfUpdate 0 13 value (bytes / MIN_ALLOCATION)).testBit i = value.testBit i := by
  have hm13 : bfMask 0 13 < 2 ^ 64 := by rw [bfMask_shift]; norm_num
  have hq64 : bytes / MIN_ALLOCATION < 2 ^ (64 - 0) := by
    simpa using lt_of_lt_of_le hfit (by norm_num)
  have hqbit : ∀ i, 13 ≤ i → (bytes / MIN_ALLOCATION).testBit i = false := by
    intro i h
    exact Nat.testBit_lt_two_pow
      (lt_of_lt_of_le hfit (Nat.pow_le_pow_right (by norm_num) h))
  refine ⟨by rw [HeapObjectHeader.set_size]; simp [Nat.pos_iff_ne_zero.mp hb], ?_, ?_⟩
  · rw [HeapObjectHeader.size, bfDecode]
    simp only [Nat.zero_mod, Nat.shiftRight_zero]
    have : bfUpdate 0 13 value (bytes / MIN_ALLOCATION) &&& bfMask 0 13
        = bytes / MIN_ALLOCATION := by
      apply Nat.eq_of_testBit_eq
      intro i
      rw [Nat.testBit_and, testBit_bfUpdate hm13, testBit_bfEncode (by norm_num) hq64,
        testBit_bfMask]
      by_cases h13 : i < 13
      · simp [show (0:Nat) ≤ i from Nat.zero_le i, show i < 0 + 13 from by omega,
          show i < 64 from by omega]
      · simp [hqbit i (by omega), show ¬(i < 0 + 13) from by omega]
    rw [this]
    exact Nat.div_mul_cancel hdvd
  · intro i hi
    rw [testBit_bfUpdate hm13, testBit_bfEncode (by norm_num) hq64]
    by_cases h64 : i < 64
    · simp [hqbit i hi, h64, show ¬(i < 0 + 13) from by omega]
    · have hvbit : value.testBit i = false :=
        Nat.testBit_lt_two_pow
          (lt_of_lt_of_le hv (Nat.pow_le_pow_right (by norm_num) (by omega)))
      simp [hqbit i hi, h64, hvbit]

/-- C8 witness: set_size at a concrete header value and byte count. -/
theorem set_size_spec_witness :
    HeapObjectHeader.set_size 0xDEAD0000 64 = some (bfUpdate 0 13 0xDEAD0000 4) ∧
    HeapObjectHeader.size (bfUpdate 0 13 0xDEAD0000 4) = 64 ∧
    ∀ i, 13 ≤ i → (bfUpdate 0 13 0xDEAD0000 4).testBit i = Nat.testBit 0xDEAD0000 i := by
  have h := set_size_spec 0xDEAD0000 64 (by decide) (by decide)
    (by decide) (by decide)
  simpa [MIN_ALLOCATION] using h

/-- C7: set_marked_bit writes MarkedBitField (bit 48) into the value widened
to 64 bits; truncating back to the 32-bit padding word discards the bit, so
the padding is unchanged and marked_bit() (bit 14) stays false. -/
theorem set_marked_bit_is_noop (p : Nat) (hp : p < 2 ^ 32) :
    HeapObjectHeader.set_marked_bit p = p ∧
    HeapObjectHeader.marked_bit (HeapObjectHeader.set_marked_bit 0) = false := by
  have hm48 : bfMask 48 1 < 2 ^ 64 := by rw [bfMask_shift]; norm_num
  constructor
  · rw [HeapObjectHeader.set_marked_bit]
    apply Nat.eq_of_testBit_eq
    intro i
    rw [Nat.testBit_mod_two_pow, testBit_bfUpdate hm48,
      testBit_bfEncode (show (48:Nat) < 64 by norm_num) (show 1 < 2 ^ (64 - 48) by norm_num)]
    by_cases h32 : i < 32
    · have h148 : Nat.testBit 1 (i - 48) = decide (i - 48 = 0) := by
        simp [show i - 48 = 0 from by omega]
      simp [h32, h148, show ¬(48 ≤ i) from by omega, show i < 64 from by omega]
    · have hpbit : p.testBit i = false :=
        Nat.testBit_lt_two_pow
          (lt_of_lt_of_le hp (Nat.pow_le_pow_right (by norm_num) (by omega)))
      simp [h32, hpbit]
  · decide

/-- C7 witness: set_marked_bit at the concrete failing input padding = 0. -/
theorem set_marked_bit_is_noop_witness :
    HeapObjectHeader.set_marked_bit 0 = 0 ∧
    HeapObjectHeader.marked_bit (HeapObjectHeader.set_marked_bit 0) = false :=
  set_marked_bit_is_noop 0 (by decide)

/-!
Safepoint protocol (crates/comet/src/safepoint.rs).

The protocol is modelled as a transition system. A thread is idle (not
inside start), waiting (its CAS on gc_running failed and it is spinning in
wait_gc before start returns false), or owner (its CAS succeeded, start
returned true, end() not yet called). The sections of start() and end()
that run under safepoint_lock are serialized by the lock and touch
gc_running exactly once (the CAS, the store in end), so each lock-protected
section is one transition; wait_gc reads gc_running without the lock and is
its own transition. compare_exchange_weak may fail spuriously, so the
losing transition has no guard on gc_running.
-/

inductive ThreadPhase where
  | idle
  | waiting
  | owner
deriving DecidableEq

structure SafepointState (n : Nat) where
  gcRunning : Bool
  enableCnt : Nat
  threads : Fin n → ThreadPhase

/-- One transition of the safepoint protocol. -/
inductive SafepointStep {n : Nat} : SafepointState n → SafepointState n → Prop
  | startWin (t : Fin n) (s : SafepointState n) :
      s.threads t = .idle → s.gcRunning = false →
      SafepointStep s ⟨true, s.enableCnt + 1, Function.update s.threads t .owner⟩
  | startLose (t : Fin n) (s : SafepointState n) :
      s.threads t = .idle →
      SafepointStep s ⟨s.gcRunning, s.enableCnt, Function.update s.threads t .waiting⟩
  | waitExit (t : Fin n) (s : SafepointState n) :
      s.threads t = .waiting → s.gcRunning = false →
      SafepointStep s ⟨s.gcRunning, s.enableCnt, Function.update s.threads t .idle⟩
  | endCollection (t : Fin n) (s : SafepointState n) :
      s.threads t = .owner →
      SafepointStep s ⟨false, s.enableCnt - 1, Function.update s.threads t .idle⟩

/-- The initial state: gc_running = 0, no thread inside the protocol. -/
def initSafepoint (n : Nat) : SafepointState n :=
  ⟨false, 0, fun _ => .idle⟩

/-- States reachable from the initial state. -/
inductive SafepointReachable (n : Nat) : SafepointState n → Prop
  | init : SafepointReachable n (initSafepoint n)
  | step {s s' : SafepointState n} :
      SafepointReachable n s → SafepointStep s s' → SafepointReachable n s'

/-- Core invariant: owners are unique and exist exactly while gc_running = 1. -/
theorem safepoint_invariant {n : Nat} (s : SafepointState n)
    (h : SafepointReachable n s) :
    (∀ t u, s.threads t = .owner → s.threads u = .owner → t = u) ∧
    ((∃ t, s.threads t = .owner) ↔ s.gcRunning = true) := by
  induction h with
  | init =>
    constructor
    · intro t u ht
      simp [initSafepoint] at ht
    · constructor
      · rintro ⟨t, ht⟩
        simp [initSafepoint] at ht
      · intro hgc
        simp [initSafepoint] at hgc
  | step hr hstep ih =>
    obtain ⟨ihuniq, ihiff⟩ := ih
    cases hstep with
    | startWin t s hidle hgc =>
      constructor
      · intro a b ha hb
        dsimp only at ha hb
        by_cases hat : a = t
        · by_cases hbt : b = t
          · rw [hat, hbt]
          · rw [Function.update_noteq hbt] at hb
            exact absurd (ihiff.mp ⟨b, hb⟩) (by simp [hgc])
        · rw [Function.update_noteq hat] at ha
          exact absurd (ihiff.mp ⟨a, ha⟩) (by simp [hgc])
      · simp only [iff_true]
        exact ⟨t, by simp⟩
    | startLose t s hidle =>
      constructor
      · intro a b ha hb
        dsimp only at ha hb
        by_cases hat : a = t
        · rw [hat] at ha; simp at ha
        · by_cases hbt : b = t
          · rw [hbt] at hb; simp at hb
          · rw [Function.update_noteq hat] at ha
            rw [Function.update_noteq hbt] at hb
            exact ihuniq a b ha hb
      · constructor
        · rintro ⟨a, ha⟩
          dsimp only at ha
          by_cases hat : a = t
          · rw [hat] at ha; simp at ha
          · rw [Function.update_noteq hat] at ha
            exact ihiff.mp ⟨a, ha⟩
        · intro hgc
          obtain ⟨a, ha⟩ := ihiff.mpr hgc
          have hat : a ≠ t := fun he => by rw [he, hidle] at ha; cases ha
          exact ⟨a, by dsimp only; rw [Function.update_noteq hat]; exact ha⟩
    | waitExit t s hwait hgc =>
      constructor
      · intro a b ha hb
        dsimp only at ha hb
        by_cases hat : a = t
        · rw [hat] at ha; simp at ha
        · by_cases hbt : b = t
          · rw [hbt] at hb; simp at hb
          · rw [Function.update_noteq hat] at ha
            rw [Function.update_noteq hbt] at hb
            exact ihuniq a b ha hb
      · constructor
        · rintro ⟨a, ha⟩
          dsimp only at ha
          by_cases hat : a = t
          · rw [hat] at ha; simp at ha
          · rw [Function.update_noteq hat] at ha
            exact ihiff.mp ⟨a, ha⟩
        · intro h1
          dsimp only at h1
          rw [hgc] at h1
          cases h1
    | endCollection t s howner =>
      constructor
      · intro a b ha hb
        dsimp only at ha hb
        by_cases hat : a = t
        · rw [hat] at ha; simp at ha
        · rw [Function.update_noteq hat] at ha
          have : a = t := ihuniq a t ha howner
          exact absurd this hat
      · constructor
        · rintro ⟨a, ha⟩
          dsimp only at ha
          by_cases hat : a = t
          · rw [hat] at ha; simp at ha
          · rw [Function.update_noteq hat] at ha
            have : a = t := ihuniq a t ha howner
            exact absurd this hat
        · intro h1; cases h1

/-- C1: in every reachable state, at most one thread is between a successful
start() and its end() (owner), gc_running = 1 exactly while such an owner
exists, a start() attempt can only succeed when gc_running = 0 (all others
go to the wait_gc spin and return false), and a thread spinning in wait_gc
leaves the spin only on observing gc_running = 0, after which start returns
false (the thread is back to idle). -/
theorem safepoint_protocol {n : Nat} (s : SafepointState n)
    (h : SafepointReachable n s) :
    (∀ t u, s.threads t = .owner → s.threads u = .owner → t = u) ∧
    ((∃ t, s.threads t = .owner) ↔ s.gcRunning = true) ∧
    (∀ s' t, SafepointStep s s' → s.threads t = .idle → s'.threads t = .owner →
      s.gcRunning = false) ∧
    (∀ s' t, SafepointStep s s' → s.threads t = .waiting → s'.threads t ≠ .waiting →
      s.gcRunning = false ∧ s'.threads t = .idle) := by
  obtain ⟨huniq, hiff⟩ := safepoint_invariant s h
  refine ⟨huniq, hiff, ?_, ?_⟩
  · intro s' t hstep hidle howner
    cases hstep with
    | startWin t0 s h1 h2 => exact h2
    | startLose t0 s h1 =>
      dsimp only at howner
      by_cases ht : t = t0
      · rw [ht] at howner; simp at howner
      · rw [Function.update_noteq ht] at howner
        rw [hidle] at howner; cases howner
    | waitExit t0 s h1 h2 =>
      dsimp only at howner
      by_cases ht : t = t0
      · rw [ht] at howner; simp at howner
      · rw [Function.update_noteq ht] at howner
        rw [hidle] at howner; cases howner
    | endCollection t0 s h1 =>
      dsimp only at howner
      by_cases ht : t = t0
      · rw [ht] at howner; simp at howner
      · rw [Function.update_noteq ht] at howner
        rw [hidle] at howner; cases howner
  · intro s' t hstep hwait hleft
    cases hstep with
    | startWin t0 s h1 h2 =>
      dsimp only at hleft
      have ht : t ≠ t0 := fun he => by rw [he, h1] at hwait; cases hwait
      rw [Function.update_noteq ht] at hleft
      exact absurd hwait hleft
    | startLose t0 s h1 =>
      dsimp only at hleft
      by_cases ht : t = t0
      · rw [ht, h1] at hwait; cases hwait
      · rw [Function.update_noteq ht] at hleft
        exact absurd hwait hleft
    | waitExit t0 s h1 h2 =>
      dsimp only at hleft
      by_cases ht : t = t0
      · subst ht
        exact ⟨h2, by simp⟩
      · rw [Function.update_noteq ht] at hleft
        exact absurd hwait hleft
    | endCollection t0 s h1 =>
      dsimp only at hleft
      have ht : t ≠ t0 := fun he => by rw [he, h1] at hwait; cases hwait
      rw [Function.update_noteq ht] at hleft
      exact absurd hwait hleft

/-- C1 witness: the protocol theorem applied to the concrete reachable state
in which thread 0 of 2 has won the CAS (one startWin step from the initial
state). -/
theorem safepoint_protocol_witness :
    (∀ t u : Fin 2,
      (SafepointState.mk true 1 (Function.update (initSafepoint 2).threads 0 .owner)).threads t
          = .owner →
      (SafepointState.mk true 1 (Function.update (initSafepoint 2).threads 0 .owner)).threads u
          = .owner → t = u) ∧
    ((∃ t : Fin 2,
      (SafepointState.mk true 1 (Function.update (initSafepoint 2).threads 0 .owner)).threads t
          = .owner) ↔
      (SafepointState.mk true 1 (Function.update (initSafepoint 2).threads 0 .owner)).gcRunning
          = true) ∧
    (∀ s' t, SafepointStep
        (SafepointState.mk true 1 (Function.update (initSafepoint 2).threads 0 .owner)) s' →
      (SafepointState.mk true 1 (Function.update (initSafepoint 2).threads 0 .owner)).threads t
          = .idle → s'.threads t = .owner →
      (SafepointState.mk true 1 (Function.update (initSafepoint 2).threads 0 .owner)).gcRunning
          = false) ∧
    (∀ s' t, SafepointStep
        (SafepointState.mk true 1 (Function.update (initSafepoint 2).threads 0 .owner)) s' →
      (SafepointState.mk true 1 (Function.update (initSafepoint 2).threads 0 .owner)).threads t
          = .waiting → s'.threads t ≠ .waiting →
      (SafepointState.mk true 1 (Function.update (initSafepoint 2).threads 0 .owner)).gcRunning
          = false ∧ s'.threads t = .idle) :=
  safepoint_protocol _
    (SafepointReachable.step SafepointReachable.init
      (SafepointStep.startWin 0 (initSafepoint 2) rfl rfl))

/-!
Bit scanning primitives used by the bitmap word loops in bitmap.rs.

The inner do-while loops of visit_marked_range, sweep_walk and
sweep_walk_color repeatedly take shift = word.trailing_zeros(), visit the
bit, and clear it with word ^= 1 << shift, until the word is zero. Each
iteration clears one set bit, so a u64 word is exhausted in at most 64
iterations; the recursions below take an explicit upper bound (the initial
word value bounds the number of iterations since the word strictly
decreases) to make them structural.
-/

/-- trailing_zeros on u64: the number of low zero bits, 64 for the zero
word. The bound argument only needs w ≤ bound. -/
def ctzAux : Nat → Nat → Nat
  | 0, _ => 64
  | fuel + 1, w => if w = 0 then 64 else if w % 2 = 1 then 0 else ctzAux fuel (w / 2) + 1

def ctz (w : Nat) : Nat := ctzAux w w

theorem ctzAux_spec : ∀ fuel w, w ≤ fuel → w ≠ 0 →
    w.testBit (ctzAux fuel w) = true ∧ ∀ i, i < ctzAux fuel w → w.testBit i = false := by
  intro fuel
  induction fuel with
  | zero => intro w hle hne; omega
  | succ f ih =>
    intro w hle hne
    rw [ctzAux]
    simp only [hne, if_false]
    by_cases hodd : w % 2 = 1
    · simp only [hodd, if_true]
      constructor
      · simp [Nat.testBit_zero, hodd]
      · intro i hi; omega
    · simp only [hodd, if_false]
      have hw2 : w / 2 ≠ 0 := by omega
      have hle2 : w / 2 ≤ f := by omega
      obtain ⟨h1, h2⟩ := ih (w / 2) hle2 hw2
      constructor
      · rw [Nat.testBit_add_one]; exact h1
      · intro i hi
        cases i with
        | zero => simp [Nat.testBit_zero]; omega
        | succ j => rw [Nat.testBit_add_one]; exact h2 j (by omega)

/-- The ctz of a nonzero word is its least set bit. -/
theorem ctz_spec (w : Nat) (hw : w ≠ 0) :
    w.testBit (ctz w) = true ∧ ∀ i, i < ctz w → w.testBit i = false :=
  ctzAux_spec w w le_rfl hw

/-- Clearing the lowest set bit strictly decreases the word. -/
theorem xor_ctz_lt (w : Nat) (hw : w ≠ 0) : w ^^^ (1 <<< ctz w) < w := by
  obtain ⟨h1, _⟩ := ctz_spec w hw
  have hpow : (1 : Nat) <<< ctz w = 2 ^ ctz w := by simp [Nat.shiftLeft_eq]
  rw [hpow]
  apply Nat.lt_of_testBit (ctz w)
  · rw [Nat.testBit_xor, h1, Nat.testBit_two_pow_self]
    rfl
  · exact h1
  · intro j hj
    rw [Nat.testBit_xor, Nat.testBit_two_pow_of_ne (by omega)]
    simp

/-- The bit positions visited by the do-while loop over one word, lowest
first. -/
def bitsOfAux : Nat → Nat → List Nat
  | 0, _ => []
  | fuel + 1, w =>
    if w = 0 then [] else ctz w :: bitsOfAux fuel (w ^^^ (1 <<< ctz w))

def bitsOf (w : Nat) : List Nat := bitsOfAux w w

/-- Splitting a filtered range at its least satisfying element. -/
theorem filter_range_step (p q : Nat → Bool) (s n : Nat) (hsn : s < n)
    (hps : p s = true) (hlow : ∀ i, i < s → p i = false)
    (hq : ∀ i, q i = (p i && !(decide (i = s)))) :
    (List.range n).filter p = s :: (List.range n).filter q := by
  have hsplit : List.range n = List.range' 0 s ++ (s :: List.range' (s + 1) (n - s - 1)) := by
    rw [List.range_eq_range']
    have h1 : List.range' 0 s ++ List.range' (0 + s) (n - s) = List.range' 0 (n - s + s) :=
      List.range'_append_1 0 s (n - s)
    have h2 : n - s + s = n := by omega
    have h3 : n - s = (n - s - 1) + 1 := by omega
    rw [h2] at h1
    rw [← h1, h3, List.range'_succ]
    simp
  have hnil_p : (List.range' 0 s).filter p = [] := by
    rw [List.filter_eq_nil_iff]
    intro a ha
    have : a < s := by
      have := List.mem_range'_1.mp ha
      omega
    simp [hlow a this]
  have hnil_q : (List.range' 0 s).filter q = [] := by
    rw [List.filter_eq_nil_iff]
    intro a ha
    have : a < s := by
      have := List.mem_range'_1.mp ha
      omega
    simp [hq a, hlow a this]
  have htail : (List.range' (s + 1) (n - s - 1)).filter p
      = (List.range' (s + 1) (n - s - 1)).filter q := by
    apply List.filter_congr
    intro a ha
    have : s + 1 ≤ a := (List.mem_range'_1.mp ha).1
    rw [hq a, show decide (a = s) = false from by simp; omega]
    simp
  rw [hsplit, List.filter_append, List.filter_append, hnil_p, hnil_q]
  simp only [List.nil_append, List.filter_cons]
  rw [hps]
  simp only [if_pos trivial, hq s, hps, decide_True]
  simp [htail]

/-- The word loop visits exactly the set bit positions, lowest first. -/
theorem bitsOfAux_eq_filter :
    ∀ fuel w n, w ≤ fuel → w < 2 ^ n →
    bitsOfAux fuel w = (List.range n).filter (fun i => w.testBit i) := by
  intro fuel
  induction fuel with
  | zero =>
    intro w n hle hlt
    have : w = 0 := by omega
    subst this
    rw [bitsOfAux]
    symm
    rw [List.filter_eq_nil_iff]
    intro a _
    simp
  | succ f ih =>
    intro w n hle hlt
    rw [bitsOfAux]
    by_cases hw : w = 0
    · subst hw
      have hnil : (List.range n).filter (fun i => Nat.testBit 0 i) = [] := by
        rw [List.filter_eq_nil_iff]
        intro a _
        simp
      rw [hnil]
      simp
    · simp only [hw, if_false]
      obtain ⟨hset, hlow⟩ := ctz_spec w hw
      have hxor : w ^^^ (1 <<< ctz w) < w := xor_ctz_lt w hw
      have hpow : (1 : Nat) <<< ctz w = 2 ^ ctz w := by simp [Nat.shiftLeft_eq]
      have hrec := ih (w ^^^ (1 <<< ctz w)) n (by omega) (by omega)
      rw [hrec]
      symm
      apply filter_range_step
      · by_contra hcon
        push_neg at hcon
        have : w < 2 ^ ctz w :=
          lt_of_lt_of_le hlt (Nat.pow_le_pow_right (by norm_num) (by omega))
        rw [Nat.testBit_lt_two_pow this] at hset
        cases hset
      · exact hset
      · exact fun i hi => hlow i hi
      · intro i
        rw [hpow, Nat.testBit_xor, Nat.testBit_two_pow]
        by_cases hi : i = ctz w
        · subst hi; simp [hset]
        · simp [hi, show ¬(ctz w = i) from fun he => hi he.symm]

/-- Membership form of the loop contract for one u64 word. -/
theorem bitsOf_eq_filter (w : Nat) (hw : w < 2 ^ 64) :
    bitsOf w = (List.range 64).filter (fun i => w.testBit i) :=
  bitsOfAux_eq_filter w w 64 le_rfl hw

/-- filter commutes with an injective reindexing map. -/
theorem filter_map_of_comp {l : List Nat} {f : Nat → Nat} {p q : Nat → Bool}
    (h : ∀ x ∈ l, q (f x) = p x) :
    (l.filter p).map f = (l.map f).filter q := by
  induction l with
  | nil => rfl
  | cons a as ihl =>
    have ha : q (f a) = p a := h a (List.mem_cons_self a as)
    have htl : ∀ x ∈ as, q (f x) = p x := fun x hx => h x (List.mem_cons_of_mem a hx)
    rw [List.filter_cons, List.map_cons, List.filter_cons, ha]
    cases hpa : p a <;> simp [hpa, ihl htl]

/-- A range filtered by a predicate that holds only inside a subsegment. -/
theorem filter_range_seg (p : Nat → Bool) (lo hi n : Nat) (hlo : lo ≤ hi) (hhi : hi ≤ n) :
    (List.range n).filter (fun s => decide (lo ≤ s) && decide (s < hi) && p s)
      = (List.range' lo (hi - lo)).filter p := by
  have hsplit : List.range n
      = List.range' 0 lo ++ List.range' lo (hi - lo) ++ List.range' hi (n - hi) := by
    rw [List.range_eq_range']
    have h1 : List.range' 0 lo ++ List.range' (0 + lo) (hi - lo)
        = List.range' 0 (hi - lo + lo) := List.range'_append_1 0 lo (hi - lo)
    have h2 : hi - lo + lo = hi := by omega
    rw [h2] at h1
    simp only [Nat.zero_add] at h1
    have h3 : List.range' 0 hi ++ List.range' (0 + hi) (n - hi)
        = List.range' 0 (n - hi + hi) := List.range'_append_1 0 hi (n - hi)
    have h4 : n - hi + hi = n := by omega
    rw [h4] at h3
    simp only [Nat.zero_add] at h3
    rw [← h3, ← h1]
  rw [hsplit, List.filter_append, List.filter_append]
  have hnil1 : (List.range' 0 lo).filter
      (fun s => decide (lo ≤ s) && decide (s < hi) && p s) = [] := by
    rw [List.filter_eq_nil_iff]
    intro a ha
    have : a < lo := by have := List.mem_range'_1.mp ha; omega
    simp; omega
  have hnil2 : (List.range' hi (n - hi)).filter
      (fun s => decide (lo ≤ s) && decide (s < hi) && p s) = [] := by
    rw [List.filter_eq_nil_iff]
    intro a ha
    have : hi ≤ a := (List.mem_range'_1.mp ha).1
    simp; omega
  have hmid : (List.range' lo (hi - lo)).filter
      (fun s => decide (lo ≤ s) && decide (s < hi) && p s)
      = (List.range' lo (hi - lo)).filter p := by
    apply List.filter_congr
    intro a ha
    have h := List.mem_range'_1.mp ha
    simp only [show lo ≤ a from h.1, show a < hi from by omega, decide_True,
      Bool.true_and]
  rw [hnil1, hnil2, hmid]
  simp

/-- Slot-number form of the bit lookup: the bit for slot n lives at bit
n % 64 of word n / 64. This is the layout contract shared by all SpaceBitmap
point and range operations. -/
def slotTest (W : Nat → Nat) (n : Nat) : Bool := (W (n / 64)).testBit (n % 64)

namespace SpaceBitmap

/-- test in bitmap.rs: load the word at offset_to_index(offset) and test the
offset_to_mask(offset) bit, offset = obj - heap_begin. -/
def test (A : Nat) (W : Nat → Nat) (H obj : Nat) : Bool :=
  W ((obj - H) / A / BITS_PER_INTPTR)
      &&& (1 <<< (((obj - H) / A) % BITS_PER_INTPTR)) != 0

end SpaceBitmap

/-- Testing a single power-of-two mask is testBit. -/
theorem land_shiftLeft_one_ne_zero (x b : Nat) :
    (x &&& (1 <<< b) != 0) = x.testBit b := by
  have hpow : (1 : Nat) <<< b = 2 ^ b := by simp [Nat.shiftLeft_eq]
  rw [hpow]
  cases h : x.testBit b with
  | false =>
    have : x &&& 2 ^ b = 0 := by
      apply Nat.eq_of_testBit_eq
      intro i
      rw [Nat.testBit_and, Nat.testBit_two_pow, Nat.zero_testBit]
      by_cases hib : b = i
      · subst hib; simp [h]
      · simp [hib]
    simp [this]
  | true =>
    have : (x &&& 2 ^ b).testBit b = true := by
      rw [Nat.testBit_and, Nat.testBit_two_pow_self, h]
      rfl
    have hne : x &&& 2 ^ b ≠ 0 := by
      intro hz
      rw [hz, Nat.zero_testBit] at this
      cases this
    simp [hne]

/-- SpaceBitmap::test at address H + n * A reads the slot-n bit. -/
theorem SpaceBitmap_test_slot (A : Nat) (W : Nat → Nat) (H n : Nat) (hA : 0 < A) :
    SpaceBitmap.test A W H (H + n * A) = slotTest W n := by
  rw [SpaceBitmap.test, slotTest, BITS_PER_INTPTR]
  have h1 : (H + n * A - H) / A = n := by
    rw [Nat.add_sub_cancel_left, Nat.mul_div_cancel _ hA]
  rw [h1, land_shiftLeft_one_ne_zero]

/-- Left-edge masking: w & !((1 << bS) - 1) keeps exactly bits bS..63. -/
theorem maskWord_testBit_left {v : Nat} (bS : Nat) (hv : v < 2 ^ 64) (hbS : bS < 64)
    (s : Nat) :
    (v &&& comp64 ((1 <<< bS) - 1)).testBit s
      = (decide (bS ≤ s) && decide (s < 64) && v.testBit s) := by
  have hpow : (1 : Nat) <<< bS = 2 ^ bS := by simp [Nat.shiftLeft_eq]
  have hm : (1 <<< bS) - 1 < 2 ^ 64 := by
    rw [hpow]
    have : (2:Nat) ^ bS ≤ 2 ^ 64 := Nat.pow_le_pow_right (by norm_num) (by omega)
    omega
  rw [Nat.testBit_and, testBit_comp64 hm, hpow, Nat.testBit_two_pow_sub_one]
  by_cases h1 : bS ≤ s
  · by_cases h2 : s < 64 <;>
      simp [h1, h2, show ¬(s < bS) from by omega, Bool.and_comm]
  · simp [h1, show s < bS from by omega]

/-- Right-edge masking: w & ((1 << bE) - 1) keeps exactly bits 0..bE-1. -/
theorem maskWord_testBit_right {v : Nat} (bE : Nat) (s : Nat) :
    (v &&& ((1 <<< bE) - 1)).testBit s = (decide (s < bE) && v.testBit s) := by
  have hpow : (1 : Nat) <<< bE = 2 ^ bE := by simp [Nat.shiftLeft_eq]
  rw [Nat.testBit_and, hpow, Nat.testBit_two_pow_sub_one, Bool.and_comm]

/-- ptr_base of the word loops: index_to_offset(i) + heap_begin. -/
def ptrBase (A H i : Nat) : Nat := i * A * BITS_PER_INTPTR + H

/-- Addresses passed to the visitor for one loaded word w at word index i:
repeatedly shift = w.trailing_zeros(); visit ptr_base + shift * ALIGN;
w ^= 1 << shift; until w = 0. -/
def visitWord (A H i w : Nat) : List Nat :=
  (bitsOf w).map (fun shift => ptrBase A H i + shift * A)

/-- One masked word enumerates exactly its surviving slots, in slot order. -/
theorem visitWord_eq (A H : Nat) (W : Nat → Nat) (i w lo hi : Nat)
    (hlo : lo ≤ hi) (hhi : hi ≤ 64) (hw64 : w < 2 ^ 64)
    (htb : ∀ s, w.testBit s = (decide (lo ≤ s) && decide (s < hi) && (W i).testBit s)) :
    visitWord A H i w
      = ((List.range' (i * 64 + lo) (hi - lo)).filter (fun n => slotTest W n)).map
          (fun n => H + n * A) := by
  rw [visitWord, bitsOf_eq_filter w hw64]
  rw [List.filter_congr (fun x _ => htb x), filter_range_seg _ lo hi 64 hlo hhi]
  have hrw : List.range' (i * 64 + lo) (hi - lo)
      = (List.range' lo (hi - lo)).map (fun s => i * 64 + s) := by
    rw [show (fun s => i * 64 + s) = (i * 64 + ·) from rfl, List.map_add_range']
  rw [hrw, List.filter_map, List.map_map]
  have hfc : (List.range' lo (hi - lo)).filter
        ((fun n => slotTest W n) ∘ (fun s => i * 64 + s))
      = (List.range' lo (hi - lo)).filter (fun s => (W i).testBit s) := by
    apply List.filter_congr
    intro a ha
    have hmem := List.mem_range'_1.mp ha
    have ha64 : a < 64 := by omega
    simp only [Function.comp]
    rw [slotTest]
    have hdiv : (i * 64 + a) / 64 = i := by
      rw [Nat.mul_comm i 64, Nat.mul_add_div (by norm_num)]
      omega
    have hmod : (i * 64 + a) % 64 = a := by
      rw [Nat.mul_comm i 64, Nat.mul_add_mod]
      omega
    rw [hdiv, hmod]
  rw [hfc]
  apply List.map_congr_left
  intro a ha
  have hmem := List.mem_range'_1.mp (List.mem_of_mem_filter ha)
  simp only [Function.comp, ptrBase, BITS_PER_INTPTR]
  ring

/-- A run of full words enumerates exactly the surviving slots of its span. -/
theorem flatMap_visitWords (A H : Nat) (W : Nat → Nat) (hW : ∀ i, W i < 2 ^ 64) :
    ∀ k a, ((List.range' a k).flatMap (fun i => visitWord A H i (W i)))
      = ((List.range' (a * 64) (k * 64)).filter (fun n => slotTest W n)).map
          (fun n => H + n * A) := by
  intro k
  induction k with
  | zero => intro a; simp
  | succ k ih =>
    intro a
    rw [List.range'_succ, List.flatMap_cons, ih (a + 1)]
    have hword : visitWord A H a (W a)
        = ((List.range' (a * 64 + 0) (64 - 0)).filter (fun n => slotTest W n)).map
            (fun n => H + n * A) := by
      apply visitWord_eq A H W a (W a) 0 64 (by omega) (by omega) (hW a)
      intro s
      by_cases hs : s < 64
      · simp [hs]
      · have hwb : (W a).testBit s = false :=
          Nat.testBit_lt_two_pow
            (lt_of_lt_of_le (hW a) (Nat.pow_le_pow_right (by norm_num) (by omega)))
        simp [hs, hwb]
    rw [hword]
    have hsplit : List.range' (a * 64) ((k + 1) * 64)
        = List.range' (a * 64) 64 ++ List.range' ((a + 1) * 64) (k * 64) := by
      have h1 : List.range' (a * 64) 64 ++ List.range' (a * 64 + 64) (k * 64)
          = List.range' (a * 64) (k * 64 + 64) := List.range'_append_1 (a * 64) 64 (k * 64)
      have h2 : (a + 1) * 64 = a * 64 + 64 := by ring
      have h3 : (k + 1) * 64 = k * 64 + 64 := by ring
      rw [h2, h3, h1]
    rw [hsplit, List.filter_append, List.map_append]
    simp

/-- visit_marked_range in bitmap.rs: mask the left-edge word below bit_start;
if the range spans several words, traverse the left edge, the full middle
words, and the right edge masked above bit_end (reading the right-edge word
only when bit_end != 0); otherwise mask the single shared word on both
sides. The visited addresses are returned in visit order. -/
def visit_marked_range (A : Nat) (W : Nat → Nat) (H visit_begin visit_end : Nat) :
    List Nat :=
  let offset_start := visit_begin - H
  let offset_end := visit_end - H
  let index_start := offset_start / A / BITS_PER_INTPTR
  let index_end := offset_end / A / BITS_PER_INTPTR
  let bit_start := (offset_start / A) % BITS_PER_INTPTR
  let bit_end := (offset_end / A) % BITS_PER_INTPTR
  let left_edge := W index_start &&& comp64 ((1 <<< bit_start) - 1)
  if index_start < index_end then
    visitWord A H index_start left_edge
      ++ ((List.range' (index_start + 1) (index_end - (index_start + 1))).flatMap
            (fun i => visitWord A H i (W i)))
      ++ visitWord A H index_end
          ((if bit_end = 0 then 0 else W index_end) &&& ((1 <<< bit_end) - 1))
  else
    visitWord A H index_end (left_edge &&& ((1 <<< bit_end) - 1))

set_option maxHeartbeats 2000000 in
/-- C2 (amended): visit_marked_range enumerates, in ascending address order,
exactly the set slot base addresses heap_begin + n * ALIGN for slot numbers
n in the half open interval from (begin - heap_begin) / ALIGN to
(end - heap_begin) / ALIGN; when begin and end lie on slot boundaries these
are exactly the set addresses in the range. -/
theorem visit_marked_range_spec (A : Nat) (W : Nat → Nat) (H vb ve : Nat)
    (hA : 0 < A) (hW : ∀ i, W i < 2 ^ 64) (hHb : H ≤ vb) (hbe : vb ≤ ve) :
    visit_marked_range A W H vb ve
      = ((List.range' ((vb - H) / A) ((ve - H) / A - (vb - H) / A)).filter
          (fun n => slotTest W n)).map (fun n => H + n * A) := by
  simp only [visit_marked_range, BITS_PER_INTPTR]
  set nB := (vb - H) / A with hnB
  set nE := (ve - H) / A with hnE
  have hBE : nB ≤ nE :=
    Nat.div_le_div_right (Nat.sub_le_sub_right hbe H)
  have hnBeq : nB / 64 * 64 + nB % 64 = nB := by
    have := Nat.div_add_mod nB 64
    omega
  have hnEeq : nE / 64 * 64 + nE % 64 = nE := by
    have := Nat.div_add_mod nE 64
    omega
  have hbSlt : nB % 64 < 64 := Nat.mod_lt _ (by norm_num)
  have hbElt : nE % 64 < 64 := Nat.mod_lt _ (by norm_num)
  have hIle : nB / 64 ≤ nE / 64 := Nat.div_le_div_right hBE
  by_cases hcase : nB / 64 < nE / 64
  · rw [if_pos hcase]
    have hleft : visitWord A H (nB / 64) (W (nB / 64) &&& comp64 ((1 <<< (nB % 64)) - 1))
        = ((List.range' (nB / 64 * 64 + nB % 64) (64 - nB % 64)).filter
            (fun n => slotTest W n)).map (fun n => H + n * A) :=
      visitWord_eq A H W (nB / 64) (W (nB / 64) &&& comp64 ((1 <<< (nB % 64)) - 1))
        (nB % 64) 64 (le_of_lt hbSlt) le_rfl
        (Nat.lt_of_le_of_lt Nat.and_le_left (hW (nB / 64)))
        (maskWord_testBit_left (nB % 64) (hW (nB / 64)) hbSlt)
    have hmid := flatMap_visitWords A H W hW (nE / 64 - (nB / 64 + 1)) (nB / 64 + 1)
    have hright : visitWord A H (nE / 64)
          ((if nE % 64 = 0 then 0 else W (nE / 64)) &&& ((1 <<< (nE % 64)) - 1))
        = ((List.range' (nE / 64 * 64) (nE % 64)).filter
            (fun n => slotTest W n)).map (fun n => H + n * A) := by
      by_cases hbE : nE % 64 = 0
      · rw [hbE]
        rw [show (1:Nat) <<< 0 - 1 = 0 from rfl]
        simp [visitWord, bitsOf, bitsOfAux]
      · rw [if_neg hbE]
        have := visitWord_eq A H W (nE / 64) (W (nE / 64) &&& ((1 <<< (nE % 64)) - 1))
          0 (nE % 64) (Nat.zero_le _) (by omega)
          (Nat.lt_of_le_of_lt Nat.and_le_left (hW _))
          (by
            intro s
            rw [maskWord_testBit_right]
            simp)
        simpa using this
    rw [hleft, hmid, hright]
    have hsplit : List.range' nB (nE - nB)
        = List.range' (nB / 64 * 64 + nB % 64) (64 - nB % 64)
          ++ List.range' ((nB / 64 + 1) * 64) ((nE / 64 - (nB / 64 + 1)) * 64)
          ++ List.range' (nE / 64 * 64) (nE % 64) := by
      have h23 : List.range' ((nB / 64 + 1) * 64) ((nE / 64 - (nB / 64 + 1)) * 64)
            ++ List.range' ((nB / 64 + 1) * 64 + (nE / 64 - (nB / 64 + 1)) * 64) (nE % 64)
          = List.range' ((nB / 64 + 1) * 64)
              (nE % 64 + (nE / 64 - (nB / 64 + 1)) * 64) :=
        List.range'_append_1 _ _ _
      have e2 : (nB / 64 + 1) * 64 + (nE / 64 - (nB / 64 + 1)) * 64 = nE / 64 * 64 := by
        have h1 : nB / 64 + 1 ≤ nE / 64 := hcase
        have h2 : (nB / 64 + 1) + (nE / 64 - (nB / 64 + 1)) = nE / 64 := by omega
        calc (nB / 64 + 1) * 64 + (nE / 64 - (nB / 64 + 1)) * 64
            = ((nB / 64 + 1) + (nE / 64 - (nB / 64 + 1))) * 64 := by ring
          _ = nE / 64 * 64 := by rw [h2]
      rw [e2] at h23
      have h123 : List.range' (nB / 64 * 64 + nB % 64) (64 - nB % 64)
            ++ List.range' (nB / 64 * 64 + nB % 64 + (64 - nB % 64))
                (nE % 64 + (nE / 64 - (nB / 64 + 1)) * 64)
          = List.range' (nB / 64 * 64 + nB % 64)
              ((nE % 64 + (nE / 64 - (nB / 64 + 1)) * 64) + (64 - nB % 64)) :=
        List.range'_append_1 _ _ _
      have e1 : nB / 64 * 64 + nB % 64 + (64 - nB % 64) = (nB / 64 + 1) * 64 := by
        have : nB % 64 < 64 := hbSlt
        omega
      rw [e1] at h123
      rw [List.append_assoc, h23, h123, hnBeq]
      congr 1
      have h1 : nB / 64 + 1 ≤ nE / 64 := hcase
      have hmul : (nE / 64 - (nB / 64 + 1)) * 64 = nE / 64 * 64 - (nB / 64 + 1) * 64 :=
        Nat.sub_mul _ _ 64
      omega
    rw [hsplit, List.filter_append, List.filter_append, List.map_append, List.map_append]
  · rw [if_neg hcase]
    have hIeq : nB / 64 = nE / 64 := by omega
    have hble : nB % 64 ≤ nE % 64 := by omega
    have hw : visitWord A H (nE / 64)
          ((W (nB / 64) &&& comp64 ((1 <<< (nB % 64)) - 1)) &&& ((1 <<< (nE % 64)) - 1))
        = ((List.range' (nE / 64 * 64 + nB % 64) (nE % 64 - nB % 64)).filter
            (fun n => slotTest W n)).map (fun n => H + n * A) := by
      refine visitWord_eq A H W (nE / 64)
        ((W (nB / 64) &&& comp64 ((1 <<< (nB % 64)) - 1)) &&& ((1 <<< (nE % 64)) - 1))
        (nB % 64) (nE % 64) hble (le_of_lt hbElt)
        (Nat.lt_of_le_of_lt Nat.and_le_left
          (Nat.lt_of_le_of_lt Nat.and_le_left (hW (nB / 64)))) ?_
      intro s
      rw [maskWord_testBit_right, maskWord_testBit_left (nB % 64) (hW (nB / 64)) hbSlt,
        hIeq]
      by_cases hs1 : s < nE % 64
      · by_cases hs2 : nB % 64 ≤ s <;>
          simp [hs1, hs2, show s < 64 from by omega]
      · simp [hs1]
    rw [hw]
    have hr : List.range' (nE / 64 * 64 + nB % 64) (nE % 64 - nB % 64)
        = List.range' nB (nE - nB) := by
      rw [show nE / 64 * 64 + nB % 64 = nB from by omega,
        show nE % 64 - nB % 64 = nE - nB from by omega]
    rw [hr]

/-- C2 witness: the S1 scenario, ALIGN = 16, heap_begin = 0x10000, bits set
at offsets 0, 0x10, 0xF0 (slots 0, 1, 15, word value 0x8003), visited over
[0x10000, 0x10100). -/
theorem visit_marked_range_spec_witness :
    visit_marked_range 16 (fun i => if i = 0 then 0x8003 else 0) 0x10000 0x10000 0x10100
      = ((List.range' ((0x10000 - 0x10000) / 16)
            ((0x10100 - 0x10000) / 16 - (0x10000 - 0x10000) / 16)).filter
          (fun n => slotTest (fun i => if i = 0 then 0x8003 else 0) n)).map
        (fun n => 0x10000 + n * 16) :=
  visit_marked_range_spec 16 (fun i => if i = 0 then 0x8003 else 0) 0x10000 0x10000 0x10100
    (by decide)
    (by intro i; dsimp only; split <;> decide)
    (by decide) (by decide)

/-- C2 counterexample: with ALIGN = 16, heap_begin = 0, a bit set at address
0 only, and the unaligned range [8, 16), the visitor is invoked at address
0, which is outside [8, 16), although address 8 is in range and test(8)
is true (both addresses share slot 0). -/
theorem visit_marked_range_claim_false :
    visit_marked_range 16 (fun i => if i = 0 then 1 else 0) 0 8 16 = [0] ∧
    ¬ (8 ≤ 0) ∧
    SpaceBitmap.test 16 (fun i => if i = 0 then 1 else 0) 0 8 = true := by
  refine ⟨by decide, by decide, by decide⟩

/-- WORD_SIZE: size_of::<usize>() on a 64-bit target. -/
def WORD_SIZE : Nat := 8

/-- The word loop of sweep_walk: for each word index, garbage =
live & !mark; if nonzero, append the garbage addresses to the pointer
buffer and flush it through the callback once cur_pointer reaches
pointer_end = buffer start + buffer_size - BITS_PER_INTPTR; after the loop,
flush a nonempty buffer. The result is the list of callback batches. -/
def sweep_walk_words (A : Nat) (Wl Wm : Nat → Nat) (H : Nat) :
    List Nat → List Nat → List (List Nat)
  | [], buf => if buf.isEmpty then [] else [buf]
  | i :: rest, buf =>
    let garbage := Wl i &&& comp64 (Wm i)
    if garbage = 0 then sweep_walk_words A Wl Wm H rest buf
    else
      let buf2 := buf ++ visitWord A H i garbage
      if WORD_SIZE * BITS_PER_INTPTR - BITS_PER_INTPTR ≤ buf2.length then
        buf2 :: sweep_walk_words A Wl Wm H rest []
      else
        sweep_walk_words A Wl Wm H rest buf2

/-- sweep_walk in bitmap.rs: no-op for an empty range, else walk the words
from offset_to_index(sweep_begin - heap_begin) to
offset_to_index(sweep_end - heap_begin - 1) inclusive. -/
def sweep_walk (A : Nat) (Wl Wm : Nat → Nat) (H sweep_begin sweep_end : Nat) :
    List (List Nat) :=
  if sweep_end ≤ sweep_begin then []
  else
    let start := (sweep_begin - H) / A / BITS_PER_INTPTR
    let endIdx := (sweep_end - H - 1) / A / BITS_PER_INTPTR
    sweep_walk_words A Wl Wm H (List.range' start (endIdx + 1 - start)) []

/-- Across all batches, the buffering is invisible: the concatenation of the
batches is the concatenation of the per-word garbage addresses. -/
theorem sweep_walk_words_flatten (A : Nat) (Wl Wm : Nat → Nat) (H : Nat) :
    ∀ idxs buf, (sweep_walk_words A Wl Wm H idxs buf).flatten
      = buf ++ idxs.flatMap (fun i => visitWord A H i (Wl i &&& comp64 (Wm i))) := by
  intro idxs
  induction idxs with
  | nil =>
    intro buf
    rw [sweep_walk_words]
    cases buf with
    | nil => simp
    | cons b bs => simp
  | cons i rest ih =>
    intro buf
    rw [sweep_walk_words]
    simp only []
    by_cases hg : Wl i &&& comp64 (Wm i) = 0
    · rw [if_pos hg, ih buf]
      have : visitWord A H i (Wl i &&& comp64 (Wm i)) = [] := by
        rw [hg]
        rfl
      rw [List.flatMap_cons, this]
      simp
    · rw [if_neg hg, List.flatMap_cons]
      by_cases hflush : WORD_SIZE * BITS_PER_INTPTR - BITS_PER_INTPTR
          ≤ (buf ++ visitWord A H i (Wl i &&& comp64 (Wm i))).length
      · rw [if_pos hflush]
        rw [List.flatten_cons, ih []]
        simp
      · rw [if_neg hflush, ih (buf ++ visitWord A H i (Wl i &&& comp64 (Wm i)))]
        simp

/-- Division helper: (A * m - 1) / A = m - 1 for positive A and m. -/
theorem mul_sub_one_div (A m : Nat) (hA : 0 < A) (hm : 0 < m) :
    (A * m - 1) / A = m - 1 := by
  obtain ⟨k, rfl⟩ : ∃ k, m = k + 1 := ⟨m - 1, by omega⟩
  rw [Nat.mul_succ]
  have heq : A * k + A - 1 = A * k + (A - 1) := by omega
  rw [heq, Nat.mul_add_div hA]
  rw [Nat.div_eq_of_lt (by omega)]
  omega

/-- C3 (amended): for a sweep range whose bounds are word aligned relative
to heap_begin (multiples of ALIGN * BITS_PER_INTPTR), the union of the
callback batches of sweep_walk is exactly the ascending list of addresses
in [sweep_begin, sweep_end) whose live bit is set and mark bit is clear.
For an unaligned range the walk covers the whole words containing it. -/
theorem sweep_walk_spec (A : Nat) (Wl Wm : Nat → Nat) (H sb se : Nat)
    (hA : 0 < A) (hWl : ∀ i, Wl i < 2 ^ 64) (hWm : ∀ i, Wm i < 2 ^ 64)
    (hHb : H ≤ sb) (hlt : sb < se)
    (hCb : A * 64 ∣ (sb - H)) (hCe : A * 64 ∣ (se - H)) :
    (sweep_walk A Wl Wm H sb se).flatten
      = ((List.range' ((sb - H) / A) ((se - H) / A - (sb - H) / A)).filter
          (fun n => slotTest Wl n && !(slotTest Wm n))).map (fun n => H + n * A) := by
  obtain ⟨p, hp⟩ := hCb
  obtain ⟨q, hq⟩ := hCe
  have hpq : p < q := by
    have h1 : sb - H < se - H := by omega
    rw [hp, hq] at h1
    exact Nat.lt_of_mul_lt_mul_left h1
  have hq1 : 0 < q := by omega
  rw [sweep_walk, if_neg (by omega)]
  simp only [BITS_PER_INTPTR]
  have hstart : (sb - H) / A / 64 = p := by
    rw [hp, Nat.mul_assoc, Nat.mul_div_cancel_left _ hA,
      Nat.mul_div_cancel_left _ (show 0 < 64 by norm_num)]
  have hend : (se - H - 1) / A / 64 = q - 1 := by
    rw [hq, Nat.mul_assoc, mul_sub_one_div A (64 * q) hA (by omega)]
    exact mul_sub_one_div 64 q (by norm_num) hq1
  rw [hstart, hend, show q - 1 + 1 - p = q - p from by omega]
  rw [sweep_walk_words_flatten]
  rw [List.nil_append]
  have hflat := flatMap_visitWords A H (fun i => Wl i &&& comp64 (Wm i))
      (fun i => Nat.lt_of_le_of_lt Nat.and_le_left (hWl i)) (q - p) p
  rw [hflat]
  have hpred : ∀ n, slotTest (fun i => Wl i &&& comp64 (Wm i)) n
      = (slotTest Wl n && !(slotTest Wm n)) := by
    intro n
    rw [slotTest, slotTest, slotTest]
    rw [Nat.testBit_and, testBit_comp64 (hWm (n / 64))]
    have hn : n % 64 < 64 := Nat.mod_lt _ (by norm_num)
    simp [hn]
  have hrange : List.range' (p * 64) ((q - p) * 64)
      = List.range' ((sb - H) / A) ((se - H) / A - (sb - H) / A) := by
    have e1 : (sb - H) / A = 64 * p := by
      rw [hp, Nat.mul_assoc, Nat.mul_div_cancel_left _ hA]
    have e2 : (se - H) / A = 64 * q := by
      rw [hq, Nat.mul_assoc, Nat.mul_div_cancel_left _ hA]
    rw [e1, e2, show p * 64 = 64 * p from by ring,
      show (q - p) * 64 = 64 * q - 64 * p from by omega]
  rw [List.filter_congr (fun n _ => hpred n), hrange]

/-- C3 witness: the S3 scenario over one word-aligned word, ALIGN = 16,
heap_begin = 0, live bits at addresses 0, 16, 32 (word 7), mark bit at 16
(word 2), sweeping [0, 1024); the batches concatenate to exactly the
live-and-unmarked addresses (namely 0 and 32). -/
theorem sweep_walk_spec_witness :
    (sweep_walk 16 (fun i => if i = 0 then 7 else 0) (fun i => if i = 0 then 2 else 0)
        0 0 1024).flatten
      = ((List.range' ((0 - 0) / 16) ((1024 - 0) / 16 - (0 - 0) / 16)).filter
          (fun n => slotTest (fun i => if i = 0 then 7 else 0) n
            && !(slotTest (fun i => if i = 0 then 2 else 0) n))).map
        (fun n => 0 + n * 16) :=
  sweep_walk_spec 16 (fun i => if i = 0 then 7 else 0) (fun i => if i = 0 then 2 else 0)
    0 0 1024 (by decide)
    (by intro i; dsimp only; split <;> decide)
    (by intro i; dsimp only; split <;> decide)
    (by decide) (by decide) (by decide) (by decide)

/-- C3 counterexample: live bit at address 0 only, no mark bits, sweeping
the unaligned range [16, 32): the callback receives address 0, which is
outside [16, 32), so sweep_walk does not report exactly the live-and-
unmarked set of the sweep range. -/
theorem sweep_walk_claim_false :
    (sweep_walk 16 (fun i => if i = 0 then 1 else 0) (fun _ => 0) 0 16 32).flatten
        = [0] ∧
    ¬ (16 ≤ 0) := by
  refine ⟨by decide, by decide⟩

/-- Bit length of a word (position of the highest set bit plus one); the
bound argument only needs w ≤ bound, and the value decreases through
halving, making the recursion structural. -/
def bitLenAux : Nat → Nat → Nat
  | 0, _ => 0
  | fuel + 1, w => if w = 0 then 0 else bitLenAux fuel (w / 2) + 1

/-- leading_zeros on u64: 64 minus the bit length. -/
def clz64 (w : Nat) : Nat := 64 - bitLenAux w w

/-- leading_zeros on u8 (used by ObjectStartBitmap::find_header). -/
def clz8 (w : Nat) : Nat := 8 - bitLenAux w w

/-- The backward scan of find_header: while word == 0 and cell_index != 0,
decrement cell_index and reload. Returns the final cell index and word. -/
def find_header_loop (W : Nat → Nat) : Nat → Nat → Nat × Nat
  | 0, word => (0, word)
  | cell + 1, word =>
    if word = 0 then find_header_loop W cell (W cell) else (cell + 1, word)

namespace SpaceBitmap

/-- find_header in bitmap.rs (SpaceBitmap<ALIGN>): compute the slot number
with ALIGN, mask the containing word up to and including its bit, scan
backward to the first nonzero word, and rebuild the address from the
highest set bit. The final offset is computed with MIN_ALLOCATION, not
ALIGN, exactly as in the source. (When no set bit exists the source
underflows in release builds; the Nat model truncates instead, a case the
claims exclude.) -/
def find_header (A : Nat) (W : Nat → Nat) (H addr : Nat) : Nat :=
  let object_offset := addr - H
  let object_start_number := object_offset / A
  let cell_index := object_start_number / BITS_PER_INTPTR
  let bit := object_start_number &&& (BITS_PER_INTPTR - 1)
  let word := W cell_index &&& ((1 <<< (bit + 1)) - 1)
  let cw := find_header_loop W cell_index word
  (cw.1 * BITS_PER_INTPTR + (BITS_PER_INTPTR - 1) - clz64 cw.2) * MIN_ALLOCATION + H

end SpaceBitmap

namespace ObjectStartBitmap

/-- BITS_PER_CELL of ObjectStartBitmap. -/
def BITS_PER_CELL : Nat := 8

/-- find_header in bitmap.rs (ObjectStartBitmap): same scan over byte cells
of 8 slots of MIN_ALLOCATION each. B is the byte array, offset the heap
begin recorded at construction. -/
def find_header (B : Nat → Nat) (offset addr_in_middle : Nat) : Nat :=
  let object_offset := addr_in_middle - offset
  let object_start_number := object_offset / MIN_ALLOCATION
  let cell_index := object_start_number / BITS_PER_CELL
  let bit := object_start_number &&& (BITS_PER_CELL - 1)
  let byte := B cell_index &&& ((1 <<< (bit + 1)) - 1)
  let cw := find_header_loop B cell_index byte
  (cw.1 * BITS_PER_CELL + (BITS_PER_CELL - 1) - clz8 cw.2) * MIN_ALLOCATION + offset

end ObjectStartBitmap

/-- Modelled from the spec: IMMIX_LINE_SIZE, the granularity of the
line-level SpaceBitmap instantiation (spec 3.2 lists ALIGN = LINE_SIZE as
an instantiation). The constant lives in the immix module, which is not
among the sources; the spec fixes only that a line is coarser than
MIN_ALLOCATION = 16 bytes. The model uses 256 bytes. -/
def IMMIX_LINE_SIZE : Nat := 256

/-- C4: find_header rebuilds the result offset with MIN_ALLOCATION even
when ALIGN is coarser. With the line bitmap (ALIGN = IMMIX_LINE_SIZE),
heap_begin = 0 and the only set bit at slot 1 (address 256 = the greatest
set address at or before 800), find_header(800) returns 16, not 256. With
ALIGN = 16 the formula agrees: the S2 scenario (bits at offsets 0 and 1024,
query 800) returns heap_begin + 0 on both SpaceBitmap and
ObjectStartBitmap. -/
theorem find_header_wrong_scale :
    SpaceBitmap.find_header IMMIX_LINE_SIZE (fun i => if i = 0 then 2 else 0) 0 800 = 16 ∧
    SpaceBitmap.test IMMIX_LINE_SIZE (fun i => if i = 0 then 2 else 0) 0 256 = true ∧
    (16 : Nat) ≠ 256 ∧ (256 : Nat) ≤ 800 ∧
    SpaceBitmap.find_header 16
        (fun i => if i = 0 then 1 else if i = 1 then 1 else 0) 0 800 = 0 ∧
    ObjectStartBitmap.find_header
        (fun i => if i = 0 then 1 else if i = 8 then 1 else 0) 0 800 = 0 := by
  refine ⟨by decide, by decide, by decide, by decide, by decide, by decide⟩

/-- modify in bitmap.rs: load the word for the address, then either set the
mask bit (skipping the store when it is already set) or clear it; returns
whether the bit was previously set, with the updated word array. -/
def SpaceBitmap.modify (set_bit : Bool) (A : Nat) (W : Nat → Nat) (H obj : Nat) :
    Bool × (Nat → Nat) :=
  let offset := obj - H
  let index := offset / A / BITS_PER_INTPTR
  let mask := 1 <<< (offset / A % BITS_PER_INTPTR)
  let old_word := W index
  let W2 :=
    if set_bit then
      if old_word &&& mask = 0 then
        fun i => if i = index then old_word ||| mask else W i
      else W
    else
      fun i => if i = index then old_word &&& comp64 mask else W i
  ((old_word &&& mask) != 0, W2)

/-- set in bitmap.rs: modify::<true>. -/
def SpaceBitmap.set (A : Nat) (W : Nat → Nat) (H obj : Nat) : Bool × (Nat → Nat) :=
  SpaceBitmap.modify true A W H obj

/-- clear in bitmap.rs: modify::<false>. -/
def SpaceBitmap.clear (A : Nat) (W : Nat → Nat) (H obj : Nat) : Bool × (Nat → Nat) :=
  SpaceBitmap.modify false A W H obj

/-!
clear_range in bitmap.rs runs two loops: the first clears single bits and
advances begin_offset by ALIGN while its bit index is nonzero, the second
retreats end_offset by ALIGN and clears while its bit index is nonzero.
Each loop runs at most 63 times, because the bit index changes by one
mod 64 per step and the loop stops at bit index 0; fuel 64 is an upper
bound that makes the recursion structural. There is no third phase: the
word-aligned middle of the range is never touched.
-/

def clear_range_loop1 (A H : Nat) :
    Nat → (Nat → Nat) → Nat → Nat → ((Nat → Nat) × Nat)
  | 0, W, b, _ => (W, b)
  | fuel + 1, W, b, e =>
    if b < e ∧ b / A % BITS_PER_INTPTR ≠ 0 then
      clear_range_loop1 A H fuel (SpaceBitmap.clear A W H (H + b)).2 (b + A) e
    else (W, b)

def clear_range_loop2 (A H : Nat) :
    Nat → (Nat → Nat) → Nat → Nat → (Nat → Nat)
  | 0, W, _, _ => W
  | fuel + 1, W, b, e =>
    if b < e ∧ e / A % BITS_PER_INTPTR ≠ 0 then
      clear_range_loop2 A H fuel (SpaceBitmap.clear A W H (H + (e - A))).2 b (e - A)
    else W

/-- clear_range in bitmap.rs. -/
def SpaceBitmap.clear_range (A : Nat) (W : Nat → Nat) (H begin_addr end_addr : Nat) :
    Nat → Nat :=
  let b0 := begin_addr - H
  let e0 := end_addr - H
  let r1 := clear_range_loop1 A H 64 W b0 e0
  clear_range_loop2 A H 64 r1.1 r1.2 e0

/-- C5: clear_range clears only the partial-word edges of the range and
never the word-aligned middle. With ALIGN = 16, heap_begin = 0 and the bit
for address 0 set, clear_range(0, 1024) leaves test(0) true, although 0 is
an aligned address inside [0, 1024). The edge path itself works: with the
bit for address 16 set, clear_range(16, 32) does clear it. -/
theorem clear_range_misses_middle :
    SpaceBitmap.test 16
        (SpaceBitmap.clear_range 16 (fun i => if i = 0 then 1 else 0) 0 0 1024) 0 0
      = true ∧
    SpaceBitmap.test 16 (fun i => if i = 0 then 1 else 0) 0 0 = true ∧
    SpaceBitmap.test 16
        (SpaceBitmap.clear_range 16 (fun i => if i = 0 then 2 else 0) 0 16 32) 0 16
      = false := by
  refine ⟨by decide, by decide, by decide⟩


/-- round_down in bitmap.rs: (x as i64 & -(n as i64)) as u64; the bit
pattern of -(n) as u64 is (2^64 - n % 2^64) % 2^64. -/
def round_down (x n : Nat) : Nat := x &&& ((2 ^ 64 - n % 2 ^ 64) % 2 ^ 64)

/-- round_up in bitmap.rs: round_down(x.wrapping_add(n).wrapping_sub(1), n). -/
def round_up (x n : Nat) : Nat :=
  round_down (((x + n) % 2 ^ 64 + (2 ^ 64 - 1)) % 2 ^ 64) n

/-- compute_bitmap_size in bitmap.rs:
(round_up(capacity, bytes_covered_per_word) / bytes_covered_per_word)
* size_of::<usize>() with bytes_covered_per_word = ALIGN * BITS_PER_INTPTR.
The u64 products cannot wrap here: the quotient is at most 2^58. -/
def compute_bitmap_size (A capacity : Nat) : Nat :=
  round_up capacity (A * BITS_PER_INTPTR) / (A * BITS_PER_INTPTR) * WORD_SIZE

/-- compute_heap_size in bitmap.rs: bitmap_bytes * 8 * ALIGN on u64. -/
def compute_heap_size (A bitmap_bytes : Nat) : Nat :=
  bitmap_bytes * 8 * A % 2 ^ 64

/-- Masking with the two-complement of a power of two rounds down to a
multiple of it: for x < 2^64 and k ≤ 64, x & (2^64 - 2^k) = x - x % 2^k. -/
theorem land_neg_pow (x k : Nat) (hx : x < 2 ^ 64) (hk : k ≤ 64) :
    x &&& (2 ^ 64 - 2 ^ k) = x - x % 2 ^ k := by
  have hmask : (2 : Nat) ^ 64 - 2 ^ k = bfMask k (64 - k) := by
    rw [bfMask_shift, Nat.mul_sub, Nat.mul_one, ← Nat.pow_add,
      show k + (64 - k) = 64 from by omega]
  have hsub : x - x % 2 ^ k = 2 ^ k * (x / 2 ^ k) := by
    have := Nat.div_add_mod x (2 ^ k)
    omega
  rw [hmask, hsub]
  apply Nat.eq_of_testBit_eq
  intro j
  rw [Nat.testBit_and, testBit_bfMask]
  have hshift : (2 : Nat) ^ k * (x / 2 ^ k) = (x >>> k) <<< k := by
    rw [Nat.shiftLeft_eq, Nat.shiftRight_eq_div_pow, Nat.mul_comm]
  rw [hshift, Nat.testBit_shiftLeft]
  by_cases hjk : k ≤ j
  · by_cases hj64 : j < 64
    · simp only [ge_iff_le, hjk, Nat.testBit_shiftRight]
      rw [show k + (j - k) = j from by omega]
      simp [hjk, show j < k + (64 - k) from by omega]
    · have hxb : x.testBit j = false :=
        Nat.testBit_lt_two_pow
          (lt_of_lt_of_le hx (Nat.pow_le_pow_right (by norm_num) (by omega)))
      simp [Nat.testBit_shiftRight, show k + (j - k) = j from by omega, hxb,
        show ¬(j < k + (64 - k)) from by omega]
  · simp [hjk]

/-- C9 (amended): for ALIGN a power of two (every bitmap instantiation is)
and any capacity c > 0 small enough that the wrapping add inside round_up
does not wrap (c + ALIGN * 64 ≤ 2^64), the round trip
compute_heap_size(compute_bitmap_size(c)) is at least c. -/
theorem compute_sizes_round_trip (A c k : Nat) (hA : A = 2 ^ k) (hk : k + 6 ≤ 64)
    (hc : 0 < c) (hov : c + A * BITS_PER_INTPTR ≤ 2 ^ 64) :
    c ≤ compute_heap_size A (compute_bitmap_size A c) := by
  rw [compute_bitmap_size, compute_heap_size, WORD_SIZE, BITS_PER_INTPTR]
  rw [BITS_PER_INTPTR] at hov
  set n := A * 64 with hn
  have hn2 : n = 2 ^ (k + 6) := by
    rw [hn, hA, Nat.pow_add]
  have hnpos : 0 < n := by
    rw [hn2]
    exact Nat.pos_pow_of_pos _ (by norm_num)
  have hke : k + 6 < 64 := by
    rcases Nat.lt_or_ge (k + 6) 64 with h | h
    · exact h
    · exfalso
      have he : n = 2 ^ 64 := by rw [hn2, show k + 6 = 64 from by omega]
      omega
  have hnlt : n < 2 ^ 64 := by
    rw [hn2]
    exact Nat.pow_lt_pow_right (by norm_num) hke
  have ht : ((c + n) % 2 ^ 64 + (2 ^ 64 - 1)) % 2 ^ 64 = c + n - 1 := by
    omega
  have hrd : round_up c n = c + n - 1 - (c + n - 1) % n := by
    rw [round_up, round_down, ht]
    have h2 : n % 2 ^ 64 = n := Nat.mod_eq_of_lt hnlt
    have h3 : (2 ^ 64 - n) % 2 ^ 64 = 2 ^ 64 - n := Nat.mod_eq_of_lt (by omega)
    have h4 := land_neg_pow (c + n - 1) (k + 6) (by omega) (by omega)
    rw [← hn2] at h4
    rw [h2, h3, h4]
  rw [hrd]
  have hqr := Nat.div_add_mod (c + n - 1) n
  have hrlt : (c + n - 1) % n < n := Nat.mod_lt _ hnpos
  have hsubq : c + n - 1 - (c + n - 1) % n = n * ((c + n - 1) / n) := by omega
  rw [hsubq, Nat.mul_div_cancel_left _ hnpos]
  have hmul : (c + n - 1) / n * 8 * 8 * A = (c + n - 1) / n * n := by
    rw [hn]
    ring
  rw [hmul]
  have hcomm : (c + n - 1) / n * n = n * ((c + n - 1) / n) := by ring
  have hlt : (c + n - 1) / n * n < 2 ^ 64 := by
    rw [hcomm]
    omega
  rw [Nat.mod_eq_of_lt hlt, hcomm]
  omega

/-- C9 counterexample: round_up computes with wrapping u64 arithmetic, so
for c = 2^64 - 1 (with ALIGN = 16) the intermediate x + n - 1 wraps and
the round trip collapses to 0, which is smaller than c. -/
theorem compute_sizes_claim_false :
    compute_heap_size 16 (compute_bitmap_size 16 (2 ^ 64 - 1)) = 0 ∧
    ¬ (2 ^ 64 - 1 ≤ (0 : Nat)) := by
  refine ⟨by decide, by decide⟩

/-- C9 witness: the round trip at ALIGN = 16, capacity 4096. -/
theorem compute_sizes_round_trip_witness :
    (4096 : Nat) ≤ compute_heap_size 16 (compute_bitmap_size 16 4096) :=
  compute_sizes_round_trip 16 4096 4 (by decide) (by decide) (by decide) (by decide)

/-- atomic_test_and_set in bitmap.rs: the CAS loop returns true as soon as
the bit is observed set; otherwise it installs old_word | mask and returns
false. In this sequential model the loop has no interference, so one
iteration decides. -/
def SpaceBitmap.atomic_test_and_set (A : Nat) (W : Nat → Nat) (H obj : Nat) :
    Bool × (Nat → Nat) :=
  let offset := obj - H
  let index := offset / A / BITS_PER_INTPTR
  let mask := 1 <<< (offset / A % BITS_PER_INTPTR)
  let old_word := W index
  if old_word &&& mask ≠ 0 then (true, W)
  else (false, fun i => if i = index then old_word ||| mask else W i)

/-- One continuous-space bitmap as held by HeapBitmap: a
SpaceBitmap<MIN_ALLOCATION> view (heap_begin, bitmap_size in bytes, word
array). -/
structure SpaceBitmapData where
  heap_begin : Nat
  bitmap_size : Nat
  words : Nat → Nat

/-- wrapping_sub on usize. -/
def wrappingSub64 (a b : Nat) : Nat := (a + (2 ^ 64 - b % 2 ^ 64)) % 2 ^ 64

/-- has_address in bitmap.rs: offset = obj.wrapping_sub(heap_begin);
offset_to_index(offset) < bitmap_size / size_of::<usize>(). -/
def has_address (sb : SpaceBitmapData) (obj : Nat) : Bool :=
  wrappingSub64 obj sb.heap_begin / MIN_ALLOCATION / BITS_PER_INTPTR
    < sb.bitmap_size / WORD_SIZE

namespace HeapBitmap

/-- HeapBitmap::test: linear scan for the owning bitmap
(get_continuous_space_bitmap); on a miss, return false. -/
def test (bs : List SpaceBitmapData) (obj : Nat) : Bool :=
  match bs with
  | [] => false
  | sb :: rest =>
    if has_address sb obj then SpaceBitmap.test MIN_ALLOCATION sb.words sb.heap_begin obj
    else test rest obj

/-- HeapBitmap::set: delegate to the owning bitmap; on a miss, return false
without touching any bitmap. -/
def set (bs : List SpaceBitmapData) (obj : Nat) : Bool × List SpaceBitmapData :=
  match bs with
  | [] => (false, [])
  | sb :: rest =>
    if has_address sb obj then
      let r := SpaceBitmap.set MIN_ALLOCATION sb.words sb.heap_begin obj
      (r.1, { sb with words := r.2 } :: rest)
    else
      let r := set rest obj
      (r.1, sb :: r.2)

/-- HeapBitmap::clear: delegate to the owning bitmap; on a miss, return
false without touching any bitmap. -/
def clear (bs : List SpaceBitmapData) (obj : Nat) : Bool × List SpaceBitmapData :=
  match bs with
  | [] => (false, [])
  | sb :: rest =>
    if has_address sb obj then
      let r := SpaceBitmap.clear MIN_ALLOCATION sb.words sb.heap_begin obj
      (r.1, { sb with words := r.2 } :: rest)
    else
      let r := clear rest obj
      (r.1, sb :: r.2)

/-- HeapBitmap::atomic_test_and_set: delegate to the owning bitmap; on a
miss, return false without touching any bitmap. -/
def atomic_test_and_set (bs : List SpaceBitmapData) (obj : Nat) :
    Bool × List SpaceBitmapData :=
  match bs with
  | [] => (false, [])
  | sb :: rest =>
    if has_address sb obj then
      let r := SpaceBitmap.atomic_test_and_set MIN_ALLOCATION sb.words sb.heap_begin obj
      (r.1, { sb with words := r.2 } :: rest)
    else
      let r := atomic_test_and_set rest obj
      (r.1, sb :: r.2)

end HeapBitmap

/-- C10: when no registered continuous-space bitmap claims the address,
HeapBitmap::test, set, clear and atomic_test_and_set all return false and
leave every registered bitmap unchanged. -/
theorem heap_bitmap_miss (bs : List SpaceBitmapData) (obj : Nat)
    (h : ∀ sb ∈ bs, has_address sb obj = false) :
    HeapBitmap.test bs obj = false ∧
    HeapBitmap.set bs obj = (false, bs) ∧
    HeapBitmap.clear bs obj = (false, bs) ∧
    HeapBitmap.atomic_test_and_set bs obj = (false, bs) := by
  induction bs with
  | nil =>
    refine ⟨rfl, rfl, rfl, rfl⟩
  | cons sb rest ih =>
    have hsb : has_address sb obj = false := h sb (List.mem_cons_self sb rest)
    have hrest : ∀ b ∈ rest, has_address b obj = false :=
      fun b hb => h b (List.mem_cons_of_mem sb hb)
    obtain ⟨h1, h2, h3, h4⟩ := ih hrest
    refine ⟨?_, ?_, ?_, ?_⟩
    · rw [HeapBitmap.test, if_neg (by simp [hsb]), h1]
    · rw [HeapBitmap.set, if_neg (by simp [hsb])]
      simp only [h2]
    · rw [HeapBitmap.clear, if_neg (by simp [hsb])]
      simp only [h3]
    · rw [HeapBitmap.atomic_test_and_set, if_neg (by simp [hsb])]
      simp only [h4]

/-- C10 witness: a heap bitmap with one registered space covering
[0, 1024) at 16-byte granularity (bitmap_size 8 bytes), queried at the
unclaimed address 5000. -/
theorem heap_bitmap_miss_witness :
    HeapBitmap.test [SpaceBitmapData.mk 0 8 (fun _ => 0)] 5000 = false ∧
    HeapBitmap.set [SpaceBitmapData.mk 0 8 (fun _ => 0)] 5000
      = (false, [SpaceBitmapData.mk 0 8 (fun _ => 0)]) ∧
    HeapBitmap.clear [SpaceBitmapData.mk 0 8 (fun _ => 0)] 5000
      = (false, [SpaceBitmapData.mk 0 8 (fun _ => 0)]) ∧
    HeapBitmap.atomic_test_and_set [SpaceBitmapData.mk 0 8 (fun _ => 0)] 5000
      = (false, [SpaceBitmapData.mk 0 8 (fun _ => 0)]) :=
  heap_bitmap_miss [SpaceBitmapData.mk 0 8 (fun _ => 0)] 5000
    (by
      intro sb hsb
      rw [List.mem_singleton] at hsb
      rw [hsb]
      decide)
